import Mathlib

/-!
Shallow embedding of `src/FileQueue.py` (a hybrid in-memory/on-disk FIFO
queue) together with proofs about its operations.

Modelling conventions:
* The item type is a parameter `α`; a chunk file's pickled payload is the
  list of items it holds (pickling round-trips exactly).
* The buffer directory's chunk files are a partial map `Nat → Option (List α)`
  from file name to payload; `str(int(_time() * 1000))`, the millisecond
  timestamp used as a file name, is modelled as an explicit `Nat` argument
  `now` supplied to every operation that can spill.  Opening a file with
  mode wb overwrites an existing file with the same name.
* The `info` file is kept separately in `Disk.info` (it is written by
  `close` and read by `initQ`, never touched in between).
* The three buffers `queue_in`, `queue_out`, `files` are plain lists in
  `QState`, which models the queue object between construction and
  `close()`.  `close` sets all three to Python `None`; the nullable state
  `QStateN` (fields of type `Option`) models the object including that
  sentinel, with Python truthiness (`None` and the empty deque are both
  falsy) translated explicitly.
* `get` blocking behaviour is modelled for the single-thread semantics the
  claims quantify over: with no producer, a wait with a positive timeout
  ends with `Empty` at the deadline, and a wait with no timeout never
  returns (`GetErr.wouldBlock`).
-/

namespace FileQueue

/-- Outcomes of `FileQueue.get` other than returning an item:
`empty` is the `Empty` exception; `corruptChunk` the IOError raised when a
listed chunk file is missing on disk; `indexError` the popleft of an empty
deque; `wouldBlock` marks the code path that waits on the condition with no
timeout and (absent a producer) never resumes. -/
inductive GetErr
  | empty
  | corruptChunk
  | indexError
  | wouldBlock
deriving DecidableEq, Repr

/-- The queue object between `__init__` and `close` (lines 30-56 establish
all fields non-None; only `close`, lines 188-190, replaces them by `None`).
`dir` is the chunk-file content of the buffer directory.  Field names
follow the source (`self.__size`, `self.__queue_in`, `self.__queue_out`,
`self.__files`, `self.__buffer_size`, `self.__save_data`). -/
structure QState (α : Type) where
  size : Int
  queue_in : List α
  queue_out : List α
  files : List Nat
  dir : Nat → Option (List α)
  buffer_size : Nat
  save_data : Bool

/-- On-disk state of the buffer directory: the chunk files plus the
optional `info` record `(size, files)` (lines 42-46, 181-183). -/
structure Disk (α : Type) where
  chunks : Nat → Option (List α)
  info : Option (Int × List Nat)

/-- `FileQueue.__init__` (lines 30-56): create the directory if absent
(`Option.none` models an absent directory), then restore `(size, files)`
from the `info` record if present, else start empty.  `queue_in` and
`queue_out` always start empty. -/
def initQ {α : Type} (d : Option (Disk α)) (buffer_size : Nat) (save_data : Bool) :
    QState α :=
  let dd := d.getD { chunks := fun _ => Option.none, info := Option.none }
  match dd.info with
  | Option.some si =>
      { size := si.1, queue_in := [], queue_out := [], files := si.2,
        dir := dd.chunks, buffer_size := buffer_size, save_data := save_data }
  | Option.none =>
      { size := 0, queue_in := [], queue_out := [], files := [],
        dir := dd.chunks, buffer_size := buffer_size, save_data := save_data }

/-- `FileQueue.__save_to_file` (lines 143-151): the file name is
`str(int(_time() * 1000))`, modelled by the argument `now`; it is appended
to the tail of `files` (or to the head when `tail` is false) and the buffer
is pickled to `bufferDirectory/<now>`, overwriting any existing file of
that name. -/
def save_to_file {α : Type} (s : QState α) (queue : List α) (tail : Bool) (now : Nat) :
    QState α :=
  { s with
    files := if tail then s.files ++ [now] else now :: s.files,
    dir := fun k => if k = now then Option.some queue else s.dir k }

/-- `FileQueue.put` (lines 58-75): append to `queue_in`; once
`len(queue_in) >= buffer_size`, either swap the two buffers (when both
`files` and `queue_out` are empty) or spill `queue_in` to a fresh chunk and
reset it; finally increment `size`. -/
def put {α : Type} (s : QState α) (item : α) (now : Nat) : QState α :=
  let s1 := { s with queue_in := s.queue_in ++ [item] }
  let s2 :=
    if s1.buffer_size ≤ s1.queue_in.length then
      if s1.files.isEmpty && s1.queue_out.isEmpty then
        { s1 with queue_in := s1.queue_out, queue_out := s1.queue_in }
      else
        { save_to_file s1 s1.queue_in true now with queue_in := [] }
    else s1
  { s2 with size := s2.size + 1 }

/-- Common tail of `FileQueue.get` (lines 111-112): `self.__size -= 1`
followed by `self.__queue_out.popleft()`; popleft of an empty deque raises
IndexError after the decrement already happened. -/
def finishPop {α : Type} (s : QState α) : Except GetErr α × QState α :=
  match s.queue_out with
  | [] => (Except.error GetErr.indexError, { s with size := s.size - 1 })
  | x :: xs =>
      (Except.ok x, { s with size := s.size - 1, queue_out := xs })

/-- `FileQueue.get` (lines 77-114) under the single-thread semantics: serve
`queue_out` if non-empty; else load the head chunk of `files` (popping it
first, so a missing file leaves `files` popped — lines 92-93); else swap in
`queue_in`; else the empty protocol: non-blocking raises Empty at once, a
positive timeout expires to Empty with no producer, and a plain blocking
wait never resumes. -/
def get {α : Type} (s : QState α) (block : Bool) (timeout : ℚ) :
    Except GetErr α × QState α :=
  match s.queue_out with
  | _ :: _ => finishPop s
  | [] =>
    match s.files with
    | id :: rest =>
      match s.dir id with
      | Option.none => (Except.error GetErr.corruptChunk, { s with files := rest })
      | Option.some content =>
          finishPop { s with files := rest,
                             dir := fun k => if k = id then Option.none else s.dir k,
                             queue_out := content }
    | [] =>
      match s.queue_in with
      | _ :: _ => finishPop { s with queue_in := s.queue_out, queue_out := s.queue_in }
      | [] =>
        if block then
          if 0 < timeout then (Except.error GetErr.empty, s)
          else (Except.error GetErr.wouldBlock, s)
        else (Except.error GetErr.empty, s)

/-- `FileQueue.get_nowait` (lines 116-122): exactly `get(block=False)`. -/
def get_nowait {α : Type} (s : QState α) : Except GetErr α × QState α :=
  get s false 0

/-- `FileQueue.close` (lines 161-190), disk effect.  On an open state
`self.__files is not None` holds, so the guard is just `save_data`: flush a
non-empty `queue_in` to a tail chunk (stamped `t1`), then a non-empty
`queue_out` to a head chunk (stamped `t2`); write the `info` record when
chunks remain, else remove the whole directory (`Option.none`).  With
`save_data` false the directory is removed unconditionally. -/
def close {α : Type} (s : QState α) (t1 t2 : Nat) : Option (Disk α) :=
  if s.save_data then
    let s1 := if s.queue_in.isEmpty then s else save_to_file s s.queue_in true t1
    let s2 := if s1.queue_out.isEmpty then s1 else save_to_file s1 s1.queue_out false t2
    if s2.files.isEmpty then Option.none
    else Option.some { chunks := s2.dir, info := Option.some (s2.size, s2.files) }
  else Option.none

/-- The items held by the queue, in service order: `queue_out` first, then
the listed chunks oldest first, then `queue_in`. -/
def pending {α : Type} (s : QState α) : List α :=
  s.queue_out ++ (s.files.filterMap s.dir).flatten ++ s.queue_in

/-- A single-thread trace step: a `put` (with the millisecond stamp its
potential spill would use) or a non-blocking `get`. -/
inductive Op (α : Type)
  | put (item : α) (now : Nat)
  | get

/-- Run a trace of operations, collecting the items the gets returned; a
get that raises continues from the state the raise left behind. -/
def runOps {α : Type} : QState α → List (Op α) → QState α × List α
  | s, [] => (s, [])
  | s, Op.put a now :: ops => runOps (put s a now) ops
  | s, Op.get :: ops =>
    match get s false 0 with
    | (Except.ok a, s') =>
        let r := runOps s' ops
        (r.1, a :: r.2)
    | (Except.error _, s') => runOps s' ops

/-- The items a trace puts, in order. -/
def putsOf {α : Type} : List (Op α) → List α
  | [] => []
  | Op.put a _ :: ops => a :: putsOf ops
  | Op.get :: ops => putsOf ops

/-- The millisecond stamps of a trace's puts, in order. -/
def tsOf {α : Type} : List (Op α) → List Nat
  | [] => []
  | Op.put _ now :: ops => now :: tsOf ops
  | Op.get :: ops => tsOf ops

/-- Perform `n` successive non-blocking gets, collecting the returned items
and stopping at the first raise. -/
def drain {α : Type} : QState α → Nat → List α × QState α
  | s, 0 => ([], s)
  | s, n + 1 =>
    match get s false 0 with
    | (Except.ok a, s') =>
        let r := drain s' n
        (a :: r.1, r.2)
    | (Except.error _, s') => ([], s')

/-- Well-formedness of the filesystem bookkeeping: no chunk id is listed
twice, the directory holds a file exactly for the listed ids, and no chunk
file is empty (the code only ever pickles non-empty deques). -/
structure QInv {α : Type} (s : QState α) : Prop where
  nodup : s.files.Nodup
  keys : ∀ id : Nat, (s.dir id).isSome ↔ id ∈ s.files
  chunks_ne : ∀ (id : Nat) (c : List α), s.dir id = Option.some c → c ≠ []

/-- The resumption decision of the blocking wait loops of `get`
(lines 100-108): both loops guard on `not self.__queue_in` only, so a woken
waiter keeps waiting (`Option.none`) unless `queue_in` is non-empty, in
which case it swaps `queue_in`/`queue_out` and falls through to the pop. -/
def wakeResume {α : Type} (s : QState α) : Option (Except GetErr α × QState α) :=
  match s.queue_in with
  | [] => Option.none
  | _ :: _ =>
      Option.some (finishPop { s with queue_in := s.queue_out, queue_out := s.queue_in })

/-- Modelled from the spec: on every wake the blocking dequeue "retries the
evaluation from the top", i.e. re-runs the outgoing → chunkList → incoming
priority chain, waiting again (`Option.none`) only when all three are
empty. -/
def wakeResumeSpec {α : Type} (s : QState α) : Option (Except GetErr α × QState α) :=
  match get s false 0 with
  | (Except.error GetErr.empty, _) => Option.none
  | r => Option.some r

/-!
The nullable embedding: the same object with the buffer fields of type
`Option`, so the `None` sentinel that `close` installs (lines 188-190) is
representable.  Python truthiness on these fields (`if self.__queue_out:`
etc.) is false both for `None` and for an empty deque.
-/

/-- Raises of the Python methods when run on a possibly-closed queue:
`attrError` is the AttributeError from calling a deque method on `None`,
the rest as in `GetErr`. -/
inductive PyErr
  | empty
  | attrError
  | corruptChunk
  | indexError
  | wouldBlock
deriving DecidableEq, Repr

/-- The queue object with the `None` sentinel representable in the three
buffer fields. -/
structure QStateN (α : Type) where
  size : Int
  queue_in : Option (List α)
  queue_out : Option (List α)
  files : Option (List Nat)
  dir : Nat → Option (List α)
  buffer_size : Nat
  save_data : Bool

/-- Python truthiness of a deque-or-None field: `None` and the empty deque
are falsy. -/
def truthy {β : Type} : Option (List β) → Bool
  | Option.none => false
  | Option.some l => !l.isEmpty

/-- `FileQueue.put` (lines 58-75) on the nullable state:
`self.__queue_in.append(item)` raises AttributeError when `queue_in` is
`None`; otherwise as `put`.  The spill path calls `__save_to_file`, whose
`self.__files.append(...)` raises AttributeError when `files` is `None`. -/
def putN {α : Type} (s : QStateN α) (item : α) (now : Nat) : Except PyErr (QStateN α) :=
  match s.queue_in with
  | Option.none => Except.error PyErr.attrError
  | Option.some qin0 =>
    let qin := qin0 ++ [item]
    let s1 := { s with queue_in := Option.some qin }
    if s1.buffer_size ≤ qin.length then
      if !truthy s1.files && !truthy s1.queue_out then
        Except.ok { s1 with queue_in := s1.queue_out, queue_out := s1.queue_in,
                            size := s1.size + 1 }
      else
        match s1.files with
        | Option.none => Except.error PyErr.attrError
        | Option.some fs =>
            Except.ok { s1 with
              files := Option.some (fs ++ [now]),
              dir := fun k => if k = now then Option.some qin else s1.dir k,
              queue_in := Option.some [],
              size := s1.size + 1 }
    else Except.ok { s1 with size := s1.size + 1 }

/-- Lines 111-112 on the nullable state: decrement `size`, then popleft,
which raises AttributeError on `None` and IndexError on an empty deque. -/
def finishPopN {α : Type} (s : QStateN α) : Except PyErr α × QStateN α :=
  match s.queue_out with
  | Option.none => (Except.error PyErr.attrError, { s with size := s.size - 1 })
  | Option.some [] => (Except.error PyErr.indexError, { s with size := s.size - 1 })
  | Option.some (x :: xs) =>
      (Except.ok x, { s with size := s.size - 1, queue_out := Option.some xs })

/-- `FileQueue.get` (lines 77-114) on the nullable state, single-thread
semantics as in `get`.  Every branch condition is a Python truthiness test,
so a `None` buffer takes the same branch as an empty one; in particular on
a closed queue all three tests fail and the empty protocol runs: Empty for
non-blocking or timed calls, an endless wait (`wouldBlock`) for a plain
blocking call. -/
def getN {α : Type} (s : QStateN α) (block : Bool) (timeout : ℚ) :
    Except PyErr α × QStateN α :=
  if truthy s.queue_out then finishPopN s
  else
    match s.files with
    | Option.some (id :: rest) =>
      match s.dir id with
      | Option.none => (Except.error PyErr.corruptChunk, { s with files := Option.some rest })
      | Option.some content =>
          finishPopN { s with files := Option.some rest,
                              dir := fun k => if k = id then Option.none else s.dir k,
                              queue_out := Option.some content }
    | _ =>
      if truthy s.queue_in then
        finishPopN { s with queue_in := s.queue_out, queue_out := s.queue_in }
      else
        if block then
          if 0 < timeout then (Except.error PyErr.empty, s)
          else (Except.error PyErr.wouldBlock, s)
        else (Except.error PyErr.empty, s)

/-- `FileQueue.get_nowait` on the nullable state. -/
def get_nowaitN {α : Type} (s : QStateN α) : Except PyErr α × QStateN α :=
  getN s false 0

/-- `FileQueue.close` (lines 161-190) on the nullable state, returning the
disk outcome together with the object after the final three assignments
`queue_in = queue_out = files = None`.  The guard is
`save_data and files is not None`; flushes are guarded by truthiness, so a
`None` buffer is simply skipped. -/
def closeN {α : Type} (s : QStateN α) (t1 t2 : Nat) : Option (Disk α) × QStateN α :=
  let disk : Option (Disk α) :=
    if s.save_data then
      match s.files with
      | Option.none => Option.none
      | Option.some fs =>
        let p1 : List Nat × (Nat → Option (List α)) :=
          match s.queue_in with
          | Option.some (x :: xs) =>
              (fs ++ [t1], fun k => if k = t1 then Option.some (x :: xs) else s.dir k)
          | _ => (fs, s.dir)
        let p2 : List Nat × (Nat → Option (List α)) :=
          match s.queue_out with
          | Option.some (y :: ys) =>
              (t2 :: p1.1, fun k => if k = t2 then Option.some (y :: ys) else p1.2 k)
          | _ => p1
        if p2.1.isEmpty then Option.none
        else Option.some { chunks := p2.2, info := Option.some (s.size, p2.1) }
    else Option.none
  (disk,
   { s with queue_in := Option.none, queue_out := Option.none, files := Option.none })

/-- The open-state view of a nullable state: all three buffers present. -/
def toN {α : Type} (s : QState α) : QStateN α :=
  { size := s.size, queue_in := Option.some s.queue_in,
    queue_out := Option.some s.queue_out, files := Option.some s.files,
    dir := s.dir, buffer_size := s.buffer_size, save_data := s.save_data }

/-- A wake-time state for the blocking-wait analysis: both in-memory
buffers empty, one chunk (id 7, holding [42]) listed and on disk — the
state a waiting consumer can observe after another thread spilled a chunk
and signalled. -/
def wakeEx : QState Nat :=
  { size := 1, queue_in := [], queue_out := [],
    files := [7],
    dir := fun k => if k = 7 then Option.some [42] else Option.none,
    buffer_size := 2, save_data := false }

/-- The state after two puts with capacity 1 when the millisecond clock
reads 5 both times: the first put swapped, the second spilled chunk 5
holding [20]. -/
def collide2 : QState Nat := put (put (initQ Option.none 1 false) 10 5) 20 5

/-- A closed queue object: the result of closing a freshly opened
capacity-2 queue. -/
def closedEx : QStateN Nat := (closeN (toN (initQ Option.none 2 false)) 5 6).2

/-!  Invariant lemmas for the single operations. -/

theorem put_spec {α : Type} (s : QState α) (a : α) (now : Nat)
    (hinv : QInv s) (hfresh : ∀ id ∈ s.files, id < now) :
    QInv (put s a now) ∧
    pending (put s a now) = pending s ++ [a] ∧
    (put s a now).size = s.size + 1 ∧
    (∀ id ∈ (put s a now).files, id ∈ s.files ∨ id = now) := by
  have hnotmem : now ∉ s.files := fun hmem => lt_irrefl now (hfresh now hmem)
  by_cases hcap : s.buffer_size ≤ s.queue_in.length + 1
  · by_cases hsw : s.files.isEmpty && s.queue_out.isEmpty
    · -- swap branch
      rw [Bool.and_eq_true, List.isEmpty_iff, List.isEmpty_iff] at hsw
      obtain ⟨hf, ho⟩ := hsw
      have hput : put s a now =
          { s with queue_in := s.queue_out, queue_out := s.queue_in ++ [a],
                   size := s.size + 1 } := by
        simp [put, hcap, hf, ho]
      rw [hput]
      refine ⟨⟨hinv.nodup, hinv.keys, hinv.chunks_ne⟩, ?_, rfl, fun id h => Or.inl h⟩
      simp [pending, hf, ho]
    · -- spill branch
      have hput : put s a now =
          { s with queue_in := [], files := s.files ++ [now],
                   dir := fun k => if k = now then Option.some (s.queue_in ++ [a])
                                   else s.dir k,
                   size := s.size + 1 } := by
        simp only [put, save_to_file]
        simp [hcap, hsw]
      rw [hput]
      refine ⟨⟨?_, ?_, ?_⟩, ?_, rfl, ?_⟩
      · exact List.Nodup.append hinv.nodup (List.nodup_singleton now)
          (by simpa using fun h => hnotmem h)
      · intro id
        by_cases hid : id = now
        · subst hid; simp
        · simp [hid, hinv.keys id]
      · intro id c hc
        by_cases hid : id = now
        · subst hid
          simp at hc
          simp [← hc]
        · simp [hid] at hc
          exact hinv.chunks_ne id c hc
      · have hcongr : s.files.filterMap
            (fun k => if k = now then Option.some (s.queue_in ++ [a]) else s.dir k)
            = s.files.filterMap s.dir := by
          apply List.filterMap_congr
          intro x hx
          have : x ≠ now := Nat.ne_of_lt (hfresh x hx)
          simp [this]
        simp [pending, hcongr]
      · intro id h
        rcases List.mem_append.mp h with h | h
        · exact Or.inl h
        · simp at h; exact Or.inr h
  · -- no trigger
    have hput : put s a now =
        { s with queue_in := s.queue_in ++ [a], size := s.size + 1 } := by
      simp [put, hcap]
    rw [hput]
    refine ⟨⟨hinv.nodup, hinv.keys, hinv.chunks_ne⟩, ?_, rfl, fun id h => Or.inl h⟩
    simp [pending]


theorem get_ok_spec {α : Type} {s s' : QState α} {a : α} (hinv : QInv s)
    (h : get s false 0 = (Except.ok a, s')) :
    QInv s' ∧ pending s = a :: pending s' ∧ s'.size = s.size - 1 ∧
    (∀ id ∈ s'.files, id ∈ s.files) := by
  obtain ⟨sz, qin, qout, fs, dirf, cap, sv⟩ := s
  obtain ⟨nodup, keys, chunks_ne⟩ := hinv
  match qout with
  | x :: xs =>
    simp only [get, finishPop, Prod.mk.injEq, Except.ok.injEq] at h
    obtain ⟨ha, hs'⟩ := h
    subst ha
    rw [← hs']
    exact ⟨⟨nodup, keys, chunks_ne⟩, by simp [pending], rfl, fun id hm => hm⟩
  | [] =>
    match hfs : fs with
    | id :: rest =>
      have hsome : (dirf id).isSome := (keys id).mpr (by simp)
      obtain ⟨content, hcontent⟩ := Option.isSome_iff_exists.mp hsome
      have hne : content ≠ [] := chunks_ne id content hcontent
      have hid_not_rest : id ∉ rest := (List.nodup_cons.mp nodup).1
      match content, hne with
      | y :: ys, _ =>
        simp only [get, hcontent, finishPop, Prod.mk.injEq, Except.ok.injEq] at h
        obtain ⟨ha, hs'⟩ := h
        subst ha
        rw [← hs']
        refine ⟨⟨?_, ?_, ?_⟩, ?_, rfl, ?_⟩
        · exact (List.nodup_cons.mp nodup).2
        · intro k
          by_cases hk : k = id
          · subst hk
            simpa using hid_not_rest
          · have hkk := keys k
            simp only [List.mem_cons] at hkk
            simp [hk, hkk]
        · intro k c hc
          by_cases hk : k = id
          · subst hk; simp at hc
          · simp [hk] at hc
            exact chunks_ne k c hc
        · have hcongr : rest.filterMap
              (fun k => if k = id then Option.none else dirf k)
              = rest.filterMap dirf := by
            apply List.filterMap_congr
            intro x hx
            have hxid : x ≠ id := fun hxe => hid_not_rest (hxe ▸ hx)
            simp [hxid]
          simp [pending, hcontent, hcongr]
        · intro k hk
          exact List.mem_cons_of_mem id hk
    | [] =>
      match qin with
      | z :: zs =>
        simp only [get, finishPop, Prod.mk.injEq, Except.ok.injEq] at h
        obtain ⟨ha, hs'⟩ := h
        subst ha
        rw [← hs']
        exact ⟨⟨nodup, keys, chunks_ne⟩, by simp [pending], rfl, fun id hm => hm⟩
      | [] =>
        simp [get] at h

theorem get_err_spec {α : Type} {s s' : QState α} {e : GetErr} (hinv : QInv s)
    (h : get s false 0 = (Except.error e, s')) :
    e = GetErr.empty ∧ s' = s ∧ pending s = [] := by
  obtain ⟨sz, qin, qout, fs, dirf, cap, sv⟩ := s
  obtain ⟨nodup, keys, chunks_ne⟩ := hinv
  match qout with
  | x :: xs => simp [get, finishPop] at h
  | [] =>
    match hfs : fs with
    | id :: rest =>
      have hsome : (dirf id).isSome := (keys id).mpr (by simp)
      obtain ⟨content, hcontent⟩ := Option.isSome_iff_exists.mp hsome
      have hne : content ≠ [] := chunks_ne id content hcontent
      match content, hne with
      | y :: ys, _ =>
        simp [get, hcontent, finishPop] at h
    | [] =>
      match qin with
      | z :: zs => simp [get, finishPop] at h
      | [] =>
        simp [get, Prod.mk.injEq] at h
        exact ⟨h.1.symm, h.2.symm, by simp [pending]⟩

/-- Trace induction: starting from a well-formed state whose size counts its
pending items, running any trace whose spill stamps are strictly increasing
and fresh for the starting state preserves well-formedness and the size
account, and the items returned followed by the items still pending are the
starting pending items followed by the items put. -/
theorem runOps_spec {α : Type} (ops : List (Op α)) :
    ∀ s : QState α, QInv s → s.size = ((pending s).length : Int) →
      (tsOf ops).Pairwise (· < ·) →
      (∀ id ∈ s.files, ∀ t ∈ tsOf ops, id < t) →
      QInv (runOps s ops).1 ∧
      ((runOps s ops).1).size = ((pending (runOps s ops).1).length : Int) ∧
      (runOps s ops).2 ++ pending (runOps s ops).1 = pending s ++ putsOf ops ∧
      (∀ id ∈ ((runOps s ops).1).files, id ∈ s.files ∨ id ∈ tsOf ops) := by
  induction ops with
  | nil =>
    intro s hinv hsz _ _
    exact ⟨hinv, hsz, by simp [runOps, putsOf], fun id h => Or.inl h⟩
  | cons op ops ih =>
    intro s hinv hsz hpw hbd
    match op with
    | Op.put a now =>
      have hpwc := List.pairwise_cons.mp (by simpa [tsOf] using hpw)
      have hfresh : ∀ id ∈ s.files, id < now := fun id hid =>
        hbd id hid now (by simp [tsOf])
      obtain ⟨hinv1, hpend1, hsz1, hfiles1⟩ := put_spec s a now hinv hfresh
      have hsz2 : (put s a now).size = ((pending (put s a now)).length : Int) := by
        rw [hsz1, hpend1, hsz]
        simp
      have hbd1 : ∀ id ∈ (put s a now).files, ∀ t ∈ tsOf ops, id < t := by
        intro id hid t ht
        rcases hfiles1 id hid with h | h
        · exact hbd id h t (by simp [tsOf, ht])
        · exact h ▸ hpwc.1 t ht
      obtain ⟨H1, H2, H3, H4⟩ := ih (put s a now) hinv1 hsz2 hpwc.2 hbd1
      have hrw : runOps s (Op.put a now :: ops) = runOps (put s a now) ops := by
        simp [runOps]
      rw [hrw]
      refine ⟨H1, H2, ?_, ?_⟩
      · rw [H3, hpend1]
        simp [putsOf]
      · intro id hid
        rcases H4 id hid with h | h
        · rcases hfiles1 id h with h2 | h2
          · exact Or.inl h2
          · exact Or.inr (by simp [tsOf, h2])
        · exact Or.inr (by simp [tsOf, h])
    | Op.get =>
      cases hg : get s false 0 with
      | mk res s1 =>
        cases res with
        | ok a =>
          obtain ⟨hinv1, hpend1, hsz1, hfiles1⟩ := get_ok_spec hinv hg
          have hlen : (pending s).length = (pending s1).length + 1 := by
            rw [hpend1]; rfl
          have hsz2 : s1.size = ((pending s1).length : Int) := by
            rw [hsz1, hsz, hlen]
            push_cast
            ring
          have hbd1 : ∀ id ∈ s1.files, ∀ t ∈ tsOf ops, id < t := fun id hid t ht =>
            hbd id (hfiles1 id hid) t (by simpa [tsOf] using ht)
          have hpw1 : (tsOf ops).Pairwise (· < ·) := by simpa [tsOf] using hpw
          obtain ⟨H1, H2, H3, H4⟩ := ih s1 hinv1 hsz2 hpw1 hbd1
          have hrw : runOps s (Op.get :: ops)
              = ((runOps s1 ops).1, a :: (runOps s1 ops).2) := by
            simp [runOps, hg]
          rw [hrw]
          refine ⟨H1, H2, ?_, ?_⟩
          · simp only [List.cons_append, H3, hpend1]
            simp [putsOf]
          · intro id hid
            rcases H4 id hid with h | h
            · exact Or.inl (hfiles1 id h)
            · exact Or.inr (by simpa [tsOf] using h)
        | error e =>
          obtain ⟨he, hseq, hpend0⟩ := get_err_spec hinv hg
          rw [hseq] at hg
          have hpw1 : (tsOf ops).Pairwise (· < ·) := by simpa [tsOf] using hpw
          have hbd1 : ∀ id ∈ s.files, ∀ t ∈ tsOf ops, id < t := fun id hid t ht =>
            hbd id hid t (by simpa [tsOf] using ht)
          obtain ⟨H1, H2, H3, H4⟩ := ih s hinv hsz hpw1 hbd1
          have hrw : runOps s (Op.get :: ops) = runOps s ops := by
            simp [runOps, hg]
          rw [hrw]
          exact ⟨H1, H2, by rw [H3]; simp [putsOf], fun id hid => by
            rcases H4 id hid with h | h
            · exact Or.inl h
            · exact Or.inr (by simpa [tsOf] using h)⟩

/-- Closing with `save_data` set and reopening the resulting directory
preserves well-formedness and the pending items, provided the two flush
stamps exceed every listed chunk id (the clock advanced past all spills)
and each other. -/
theorem close_reopen_spec {α : Type} (s : QState α) (t1 t2 : Nat) (cap2 : Nat) (sv2 : Bool)
    (hinv : QInv s) (hsz : s.size = ((pending s).length : Int))
    (hsd : s.save_data = true)
    (hb1 : ∀ id ∈ s.files, id < t1) (h12 : t1 < t2) :
    QInv (initQ (close s t1 t2) cap2 sv2) ∧
    (initQ (close s t1 t2) cap2 sv2).size
      = ((pending (initQ (close s t1 t2) cap2 sv2)).length : Int) ∧
    pending (initQ (close s t1 t2) cap2 sv2) = pending s := by
  obtain ⟨sz, qin, qout, fs, dirf, cap, sv⟩ := s
  obtain ⟨nodup, keys, chunks_ne⟩ := hinv
  simp only at hsd hb1 hsz nodup keys chunks_ne
  subst hsd
  have ht1fs : t1 ∉ fs := fun h => lt_irrefl t1 (hb1 t1 h)
  have ht2fs : t2 ∉ fs := fun h => lt_irrefl t2 (lt_trans (hb1 t2 h) h12)
  have ht12 : t2 ≠ t1 := Nat.ne_of_gt h12
  have ht21 : t1 ≠ t2 := Nat.ne_of_lt h12
  have hfs1 : (fs ++ [t1]).Nodup :=
    List.Nodup.append nodup (List.nodup_singleton t1) (by simpa using fun h => ht1fs h)
  match qin, qout with
  | z :: zs, y :: ys =>
    have hre : initQ (close ⟨sz, z :: zs, y :: ys, fs, dirf, cap, true⟩ t1 t2) cap2 sv2
        = ⟨sz, [], [], t2 :: (fs ++ [t1]),
           fun k => if k = t2 then Option.some (y :: ys)
                    else if k = t1 then Option.some (z :: zs) else dirf k,
           cap2, sv2⟩ := by
      simp [close, save_to_file, initQ]
    rw [hre]
    have hcongr : fs.filterMap
        (fun k => if k = t2 then Option.some (y :: ys)
                  else if k = t1 then Option.some (z :: zs) else dirf k)
        = fs.filterMap dirf := by
      apply List.filterMap_congr
      intro x hx
      have hx1 : x ≠ t1 := Nat.ne_of_lt (hb1 x hx)
      have hx2 : x ≠ t2 := Nat.ne_of_lt (lt_trans (hb1 x hx) h12)
      simp [hx1, hx2]
    have hpend : pending (⟨sz, [], [], t2 :: (fs ++ [t1]),
           fun k => if k = t2 then Option.some (y :: ys)
                    else if k = t1 then Option.some (z :: zs) else dirf k,
           cap2, sv2⟩ : QState α)
        = pending ⟨sz, z :: zs, y :: ys, fs, dirf, cap, true⟩ := by
      simp [pending, hcongr, ht12, ht21]
    refine ⟨⟨?_, ?_, ?_⟩, ?_, hpend⟩
    · simp [List.nodup_cons, hfs1, ht2fs, ht12]
    · intro k
      by_cases hk2 : k = t2
      · subst hk2; simp
      · by_cases hk1 : k = t1
        · subst hk1; simp [hk2]
        · simp [hk1, hk2, keys k]
    · intro k c hc
      by_cases hk2 : k = t2
      · subst hk2; simp at hc; simp [← hc]
      · by_cases hk1 : k = t1
        · subst hk1; simp [hk2] at hc; simp [← hc]
        · simp [hk1, hk2] at hc
          exact chunks_ne k c hc
    · rw [hpend]
      simpa using hsz
  | z :: zs, [] =>
    have hre : initQ (close ⟨sz, z :: zs, [], fs, dirf, cap, true⟩ t1 t2) cap2 sv2
        = ⟨sz, [], [], fs ++ [t1],
           fun k => if k = t1 then Option.some (z :: zs) else dirf k,
           cap2, sv2⟩ := by
      simp [close, save_to_file, initQ]
    rw [hre]
    have hcongr : fs.filterMap
        (fun k => if k = t1 then Option.some (z :: zs) else dirf k)
        = fs.filterMap dirf := by
      apply List.filterMap_congr
      intro x hx
      have hx1 : x ≠ t1 := Nat.ne_of_lt (hb1 x hx)
      simp [hx1]
    have hpend : pending (⟨sz, [], [], fs ++ [t1],
           fun k => if k = t1 then Option.some (z :: zs) else dirf k,
           cap2, sv2⟩ : QState α)
        = pending ⟨sz, z :: zs, [], fs, dirf, cap, true⟩ := by
      simp [pending, hcongr]
    refine ⟨⟨?_, ?_, ?_⟩, ?_, hpend⟩
    · exact hfs1
    · intro k
      by_cases hk1 : k = t1
      · subst hk1; simp
      · simp [hk1, keys k]
    · intro k c hc
      by_cases hk1 : k = t1
      · subst hk1; simp at hc; simp [← hc]
      · simp [hk1] at hc
        exact chunks_ne k c hc
    · rw [hpend]
      simpa using hsz
  | [], y :: ys =>
    have hre : initQ (close ⟨sz, [], y :: ys, fs, dirf, cap, true⟩ t1 t2) cap2 sv2
        = ⟨sz, [], [], t2 :: fs,
           fun k => if k = t2 then Option.some (y :: ys) else dirf k,
           cap2, sv2⟩ := by
      simp [close, save_to_file, initQ]
    rw [hre]
    have hcongr : fs.filterMap
        (fun k => if k = t2 then Option.some (y :: ys) else dirf k)
        = fs.filterMap dirf := by
      apply List.filterMap_congr
      intro x hx
      have hx2 : x ≠ t2 := Nat.ne_of_lt (lt_trans (hb1 x hx) h12)
      simp [hx2]
    have hpend : pending (⟨sz, [], [], t2 :: fs,
           fun k => if k = t2 then Option.some (y :: ys) else dirf k,
           cap2, sv2⟩ : QState α)
        = pending ⟨sz, [], y :: ys, fs, dirf, cap, true⟩ := by
      simp [pending, hcongr]
    refine ⟨⟨?_, ?_, ?_⟩, ?_, hpend⟩
    · simp [List.nodup_cons, nodup, ht2fs]
    · intro k
      by_cases hk2 : k = t2
      · subst hk2; simp
      · simp [hk2, keys k]
    · intro k c hc
      by_cases hk2 : k = t2
      · subst hk2; simp at hc; simp [← hc]
      · simp [hk2] at hc
        exact chunks_ne k c hc
    · rw [hpend]
      simpa using hsz
  | [], [] =>
    match fs, nodup, keys, chunks_ne, hb1, ht1fs, ht2fs, hsz with
    | f :: fs2, nodup, keys, chunks_ne, hb1, ht1fs, ht2fs, hsz =>
      have hre : initQ (close ⟨sz, [], [], f :: fs2, dirf, cap, true⟩ t1 t2) cap2 sv2
          = ⟨sz, [], [], f :: fs2, dirf, cap2, sv2⟩ := by
        simp [close, initQ]
      rw [hre]
      refine ⟨⟨nodup, keys, chunks_ne⟩, ?_, ?_⟩
      · simpa [pending] using hsz
      · simp [pending]
    | [], _, keys, _, _, _, _, hsz =>
      have hre : initQ (close ⟨sz, [], [], [], dirf, cap, true⟩ t1 t2) cap2 sv2
          = ⟨0, [], [], [], fun _ => Option.none, cap2, sv2⟩ := by
        simp [close, initQ]
      rw [hre]
      refine ⟨⟨List.nodup_nil, by simp, by simp⟩, by simp [pending], ?_⟩
      simp [pending]

/-- Draining `n` items by non-blocking gets from a well-formed state
returns exactly the first `n` pending items (fewer when the queue runs
out, at which point Empty stops the drain). -/
theorem drain_take {α : Type} : ∀ (n : Nat) (s : QState α), QInv s →
    (drain s n).1 = (pending s).take n := by
  intro n
  induction n with
  | zero => intro s _; simp [drain]
  | succ n ih =>
    intro s hinv
    cases hg : get s false 0 with
    | mk res s1 =>
      cases res with
      | ok a =>
        obtain ⟨hinv1, hpend1, _, _⟩ := get_ok_spec hinv hg
        have hrw : drain s (n + 1) = (a :: (drain s1 n).1, (drain s1 n).2) := by
          simp [drain, hg]
        rw [hrw, hpend1]
        simp [ih s1 hinv1]
      | error e =>
        obtain ⟨_, _, hpend0⟩ := get_err_spec hinv hg
        have hrw : drain s (n + 1) = ([], s1) := by
          simp [drain, hg]
        rw [hrw, hpend0]
        simp

/-- A fresh queue on an absent directory is well-formed, empty, and its
size counter is zero. -/
theorem initQ_none_spec {α : Type} (cap : Nat) (sv : Bool) :
    QInv (initQ Option.none cap sv : QState α) ∧
    (initQ Option.none cap sv : QState α).size
      = ((pending (initQ Option.none cap sv : QState α)).length : Int) ∧
    pending (initQ Option.none cap sv : QState α) = [] ∧
    (initQ Option.none cap sv : QState α).files = [] := by
  refine ⟨⟨?_, ?_, ?_⟩, ?_, ?_, rfl⟩
  · simp [initQ]
  · intro id; simp [initQ]
  · intro id c hc; simp [initQ] at hc
  · simp [initQ, pending]
  · simp [initQ, pending]

/-- Put-only traces return no items. -/
theorem runOps_puts_nil {α : Type} (puts : List (α × Nat)) : ∀ s : QState α,
    (runOps s (puts.map fun p => Op.put p.1 p.2)).2 = [] := by
  induction puts with
  | nil => intro s; simp [runOps]
  | cons p ps ih => intro s; simpa [runOps] using ih (put s p.1 p.2)

/-- Stamps of a put-only trace. -/
theorem tsOf_map_put {α : Type} (puts : List (α × Nat)) :
    tsOf (puts.map fun p => Op.put p.1 p.2) = puts.map Prod.snd := by
  induction puts with
  | nil => rfl
  | cons p ps ih => simp [tsOf, ih]

/-- Items of a put-only trace. -/
theorem putsOf_map_put {α : Type} (puts : List (α × Nat)) :
    putsOf (puts.map fun p => Op.put p.1 p.2) = puts.map Prod.fst := by
  induction puts with
  | nil => rfl
  | cons p ps ih => simp [putsOf, ih]

/-- A non-blocking get never looks at the timeout (it is ignored, per the
docstring of lines 84-86). -/
theorem get_nonblocking_timeout_irrel {α : Type} (s : QState α) (t : ℚ) :
    get s false t = get s false 0 := by
  obtain ⟨sz, qin, qout, fs, dirf, cap, sv⟩ := s
  match qout with
  | x :: xs => rfl
  | [] =>
    match fs with
    | id :: rest =>
      match dirf id with
      | Option.none => rfl
      | Option.some content => rfl
    | [] =>
      match qin with
      | z :: zs => rfl
      | [] => rfl

/-- `put` leaves fewer than `buffer_size` items in `queue_in` whenever that
held before, and never changes `buffer_size`. -/
theorem put_queue_in_lt {α : Type} (s : QState α) (a : α) (now : Nat)
    (hcap : 1 ≤ s.buffer_size) (h : s.queue_in.length < s.buffer_size) :
    (put s a now).queue_in.length < s.buffer_size ∧
    (put s a now).buffer_size = s.buffer_size := by
  by_cases hc : s.buffer_size ≤ s.queue_in.length + 1
  · by_cases hsw : s.files.isEmpty && s.queue_out.isEmpty
    · rw [Bool.and_eq_true, List.isEmpty_iff, List.isEmpty_iff] at hsw
      have hput : put s a now =
          { s with queue_in := s.queue_out, queue_out := s.queue_in ++ [a],
                   size := s.size + 1 } := by
        simp [put, hc, hsw.1, hsw.2]
      rw [hput]
      exact ⟨by simp [hsw.2]; exact hcap, rfl⟩
    · have hput : put s a now =
          { s with queue_in := [], files := s.files ++ [now],
                   dir := fun k => if k = now then Option.some (s.queue_in ++ [a])
                                   else s.dir k,
                   size := s.size + 1 } := by
        simp only [put, save_to_file]
        simp [hc, hsw]
      rw [hput]
      exact ⟨by simp; exact hcap, rfl⟩
  · have hput : put s a now =
        { s with queue_in := s.queue_in ++ [a], size := s.size + 1 } := by
      simp [put, hc]
    rw [hput]
    exact ⟨by simp; omega, rfl⟩

/-- `get` never grows `queue_in` and never changes `buffer_size`. -/
theorem get_queue_in_le {α : Type} (s : QState α) (block : Bool) (t : ℚ) :
    ((get s block t).2).queue_in.length ≤ s.queue_in.length ∧
    ((get s block t).2).buffer_size = s.buffer_size ∧
    ((get s block t).2).save_data = s.save_data := by
  obtain ⟨sz, qin, qout, fs, dirf, cap, sv⟩ := s
  match qout with
  | x :: xs => simp [get, finishPop]
  | [] =>
    match fs with
    | id :: rest =>
      match hd : dirf id with
      | Option.none => simp [get, hd]
      | Option.some content =>
        match content with
        | [] => simp [get, hd, finishPop]
        | y :: ys => simp [get, hd, finishPop]
    | [] =>
      match qin with
      | z :: zs => simp [get, finishPop]
      | [] =>
        by_cases hb : block
        · by_cases ht : (0 : ℚ) < t
          · simp [get, hb, ht]
          · simp [get, hb, ht]
        · simp [get, hb]

/-- Along any trace from a state whose incoming buffer is below a capacity
of at least one, the incoming buffer stays below capacity. -/
theorem runOps_queue_in_lt {α : Type} (ops : List (Op α)) :
    ∀ s : QState α, 1 ≤ s.buffer_size → s.queue_in.length < s.buffer_size →
      ((runOps s ops).1).queue_in.length < s.buffer_size ∧
      ((runOps s ops).1).buffer_size = s.buffer_size := by
  induction ops with
  | nil => intro s _ h; exact ⟨h, rfl⟩
  | cons op ops ih =>
    intro s hcap h
    match op with
    | Op.put a now =>
      obtain ⟨h1, h2⟩ := put_queue_in_lt s a now hcap h
      have hrw : runOps s (Op.put a now :: ops) = runOps (put s a now) ops := by
        simp [runOps]
      rw [hrw]
      obtain ⟨H1, H2⟩ := ih (put s a now) (h2 ▸ hcap) (h2 ▸ h1)
      exact ⟨h2 ▸ H1, h2 ▸ H2⟩
    | Op.get =>
      obtain ⟨h1, h2, h3⟩ := get_queue_in_le s false 0
      cases hg : get s false 0 with
      | mk res s1 =>
        rw [hg] at h1 h2
        simp only at h1 h2
        have hle : s1.queue_in.length < s.buffer_size := lt_of_le_of_lt h1 h
        obtain ⟨H1, H2⟩ := ih s1 (h2 ▸ hcap) (by rw [h2]; exact hle)
        cases res with
        | ok a =>
          have hrw : runOps s (Op.get :: ops)
              = ((runOps s1 ops).1, a :: (runOps s1 ops).2) := by
            simp [runOps, hg]
          rw [hrw]
          exact ⟨h2 ▸ H1, h2 ▸ H2⟩
        | error e =>
          have hrw : runOps s (Op.get :: ops) = runOps s1 ops := by
            simp [runOps, hg]
          rw [hrw]
          exact ⟨h2 ▸ H1, h2 ▸ H2⟩

/-!  The claims. -/

/-- Claim C1: for every bufferCapacity >= 1 and every finite single-thread
trace of put calls interleaved with non-blocking get calls on a queue
opened on a fresh directory, the items the gets return — followed by the
items still pending — equal the items put, in the same order, regardless
of whether the capacity forces zero, one, or many spills.  The hypothesis
that the spill stamps strictly increase is the spec's environment
assumption of a monotonically distinct identifier per spill event
(a failed get raises Empty, returns nothing and leaves the state alone, so
the successful gets' returns are exactly a prefix of the put sequence). -/
theorem claim1_fifo {α : Type} (cap : Nat) (sv : Bool) (ops : List (Op α))
    (hcap : 1 ≤ cap) (hts : (tsOf ops).Pairwise (fun a b => a < b)) :
    (runOps (initQ Option.none cap sv) ops).2
      ++ pending (runOps (initQ Option.none cap sv) ops).1 = putsOf ops := by
  obtain ⟨hinv, hsz, hpend, hfiles⟩ := @initQ_none_spec α cap sv
  have hbd : ∀ id ∈ (initQ Option.none cap sv : QState α).files,
      ∀ t ∈ tsOf ops, id < t := by
    rw [hfiles]
    intro id hid
    simp at hid
  obtain ⟨H1, H2, H3, H4⟩ := runOps_spec ops (initQ Option.none cap sv) hinv hsz hts hbd
  rw [H3, hpend]
  simp

/-- Witness for C1: capacity 2, three puts interleaved with three gets. -/
theorem claim1_fifo_witness :
    (runOps (initQ Option.none 2 false : QState Nat)
        [Op.put 10 1, Op.put 20 2, Op.get, Op.put 30 3, Op.get, Op.get]).2
      ++ pending (runOps (initQ Option.none 2 false : QState Nat)
        [Op.put 10 1, Op.put 20 2, Op.get, Op.put 30 3, Op.get, Op.get]).1
      = putsOf [Op.put 10 1, Op.put 20 2, Op.get, Op.put 30 3, Op.get, Op.get] :=
  claim1_fifo 2 false _ (by decide) (by decide)

/-- Claim C4: in single-threaded use from a fresh directory, after
construction and after every put and every successful get (i.e. after any
trace, with the unique-stamp environment assumption), the size counter
equals len(incoming) + len(outgoing) + the summed lengths of the buffers
stored in the chunks of chunkList. -/
theorem claim4_size_account {α : Type} (cap : Nat) (sv : Bool) (ops : List (Op α))
    (hts : (tsOf ops).Pairwise (fun a b => a < b)) :
    ((runOps (initQ Option.none cap sv) ops).1).size
      = ((((runOps (initQ Option.none cap sv) ops).1).queue_in.length
         + ((runOps (initQ Option.none cap sv) ops).1).queue_out.length
         + ((((runOps (initQ Option.none cap sv) ops).1).files.filterMap
              ((runOps (initQ Option.none cap sv) ops).1).dir).map List.length).sum : Nat)
         : Int) := by
  obtain ⟨hinv, hsz, hpend, hfiles⟩ := @initQ_none_spec α cap sv
  have hbd : ∀ id ∈ (initQ Option.none cap sv : QState α).files,
      ∀ t ∈ tsOf ops, id < t := by
    rw [hfiles]
    intro id hid
    simp at hid
  obtain ⟨H1, H2, H3, H4⟩ := runOps_spec ops (initQ Option.none cap sv) hinv hsz hts hbd
  rw [H2]
  simp [pending]
  ring

/-- Witness for C4 on the trace of the C1 witness. -/
theorem claim4_size_account_witness :
    ((runOps (initQ Option.none 2 false : QState Nat)
        [Op.put 10 1, Op.put 20 2, Op.get, Op.put 30 3, Op.get]).1).size
      = ((((runOps (initQ Option.none 2 false : QState Nat)
        [Op.put 10 1, Op.put 20 2, Op.get, Op.put 30 3, Op.get]).1).queue_in.length
         + ((runOps (initQ Option.none 2 false : QState Nat)
        [Op.put 10 1, Op.put 20 2, Op.get, Op.put 30 3, Op.get]).1).queue_out.length
         + ((((runOps (initQ Option.none 2 false : QState Nat)
        [Op.put 10 1, Op.put 20 2, Op.get, Op.put 30 3, Op.get]).1).files.filterMap
              ((runOps (initQ Option.none 2 false : QState Nat)
        [Op.put 10 1, Op.put 20 2, Op.get, Op.put 30 3, Op.get]).1).dir).map
              List.length).sum : Nat) : Int) :=
  claim4_size_account 2 false _ (by decide)

/-- Claim C10: for every bufferCapacity >= 1, after construction on a
fresh directory and after every put and every (attempted) get, the
incoming buffer holds fewer than bufferCapacity items: it is emptied by a
swap or spill the moment it reaches capacity. -/
theorem claim10_incoming_below_capacity {α : Type} (cap : Nat) (sv : Bool)
    (ops : List (Op α)) (hcap : 1 ≤ cap) :
    ((runOps (initQ Option.none cap sv) ops).1).queue_in.length < cap := by
  have hcap2 : 1 ≤ (initQ Option.none cap sv : QState α).buffer_size := hcap
  have hlt : (initQ Option.none cap sv : QState α).queue_in.length
      < (initQ Option.none cap sv : QState α).buffer_size := hcap
  exact (runOps_queue_in_lt ops (initQ Option.none cap sv) hcap2 hlt).1

/-- Witness for C10 at capacity 1 (every put swaps or spills at once). -/
theorem claim10_incoming_below_capacity_witness :
    ((runOps (initQ Option.none 1 false : QState Nat)
        [Op.put 10 1, Op.put 20 2, Op.get, Op.put 30 3]).1).queue_in.length < 1 :=
  claim10_incoming_below_capacity 1 false _ (by decide)

/-- `put` never changes `save_data`. -/
theorem put_save_data {α : Type} (s : QState α) (a : α) (now : Nat) :
    (put s a now).save_data = s.save_data := by
  by_cases hc : s.buffer_size ≤ s.queue_in.length + 1
  · by_cases hsw : s.files.isEmpty && s.queue_out.isEmpty
    · simp [put, hc, hsw]
    · simp [put, save_to_file, hc, hsw]
  · simp [put, hc]

/-- Traces never change `save_data`. -/
theorem runOps_save_data {α : Type} (ops : List (Op α)) :
    ∀ s : QState α, ((runOps s ops).1).save_data = s.save_data := by
  induction ops with
  | nil => intro s; rfl
  | cons op ops ih =>
    intro s
    match op with
    | Op.put a now =>
      have hrw : runOps s (Op.put a now :: ops) = runOps (put s a now) ops := by
        simp [runOps]
      rw [hrw, ih (put s a now), put_save_data]
    | Op.get =>
      obtain ⟨_, _, h3⟩ := get_queue_in_le s false 0
      cases hg : get s false 0 with
      | mk res s1 =>
        rw [hg] at h3
        simp only at h3
        cases res with
        | ok a =>
          have hrw : runOps s (Op.get :: ops)
              = ((runOps s1 ops).1, a :: (runOps s1 ops).2) := by
            simp [runOps, hg]
          rw [hrw]
          simpa [h3] using ih s1
        | error e =>
          have hrw : runOps s (Op.get :: ops) = runOps s1 ops := by
            simp [runOps, hg]
          rw [hrw]
          simpa [h3] using ih s1

/-- Claim C2: for every bufferCapacity >= 1 and every sequence of items,
put them all into a queue constructed with save_data on a fresh directory,
close it, reopen a queue on the resulting directory and perform N gets:
the returned sequence equals the put sequence in order.  The spill/flush
stamps (put stamps, then queue_in flush stamp t1, then queue_out flush
stamp t2) strictly increase — the spec's unique-id environment
assumption. -/
theorem claim2_roundtrip {α : Type} (cap cap2 : Nat) (sv2 : Bool)
    (puts : List (α × Nat)) (t1 t2 : Nat)
    (hcap : 1 ≤ cap)
    (hts : (puts.map Prod.snd ++ [t1, t2]).Pairwise (fun a b => a < b)) :
    (drain (initQ (close (runOps (initQ Option.none cap true)
        (puts.map fun p => Op.put p.1 p.2)).1 t1 t2) cap2 sv2)
      puts.length).1 = puts.map Prod.fst := by
  rw [List.pairwise_append] at hts
  obtain ⟨hts1, hts2, hcross⟩ := hts
  have h12 : t1 < t2 := by
    have h := List.pairwise_cons.mp hts2
    exact h.1 t2 (by simp)
  obtain ⟨hinv, hsz, hpend, hfiles⟩ := @initQ_none_spec α cap true
  have hbd : ∀ id ∈ (initQ Option.none cap true : QState α).files,
      ∀ t ∈ tsOf (puts.map fun p => Op.put p.1 p.2), id < t := by
    rw [hfiles]
    intro id hid
    simp at hid
  have htsP : (tsOf (puts.map fun p => Op.put p.1 p.2)).Pairwise (fun a b => a < b) := by
    rw [tsOf_map_put]
    exact hts1
  obtain ⟨H1, H2, H3, H4⟩ := runOps_spec (puts.map fun p => Op.put p.1 p.2)
    (initQ Option.none cap true) hinv hsz htsP hbd
  have hpendS : pending (runOps (initQ Option.none cap true)
      (puts.map fun p => Op.put p.1 p.2)).1 = puts.map Prod.fst := by
    have hnil := runOps_puts_nil puts (initQ Option.none cap true : QState α)
    rw [hnil] at H3
    simpa [hpend, putsOf_map_put] using H3
  have hbS : ∀ id ∈ ((runOps (initQ Option.none cap true)
      (puts.map fun p => Op.put p.1 p.2)).1).files, id < t1 := by
    intro id hid
    rcases H4 id hid with h | h
    · rw [hfiles] at h
      simp at h
    · rw [tsOf_map_put] at h
      exact hcross id h t1 (by simp)
  have hsd : ((runOps (initQ Option.none cap true)
      (puts.map fun p => Op.put p.1 p.2)).1).save_data = true :=
    runOps_save_data (puts.map fun p => Op.put p.1 p.2) (initQ Option.none cap true)
  obtain ⟨G1, G2, G3⟩ := close_reopen_spec (runOps (initQ Option.none cap true)
    (puts.map fun p => Op.put p.1 p.2)).1 t1 t2 cap2 sv2 H1 H2 hsd hbS h12
  rw [drain_take puts.length _ G1, G3, hpendS]
  have hlen : puts.length = (puts.map Prod.fst).length := (List.length_map _ _).symm
  rw [hlen, List.take_length]

/-- Witness for C2: three items, capacity 2 (forcing a spill), flush
stamps 4 and 5. -/
theorem claim2_roundtrip_witness :
    (drain (initQ (close (runOps (initQ Option.none 2 true : QState Nat)
        (([(10, 1), (20, 2), (30, 3)] : List (Nat × Nat)).map
          fun p => Op.put p.1 p.2)).1 4 5) 2 false)
      ([(10, 1), (20, 2), (30, 3)] : List (Nat × Nat)).length).1
      = ([(10, 1), (20, 2), (30, 3)] : List (Nat × Nat)).map Prod.fst :=
  claim2_roundtrip 2 2 false _ 4 5 (by decide) (by decide)

/-- Claim C3: for every queue state and every item, put appends the item
to incoming; then, if len(incoming) has reached bufferCapacity, it swaps
incoming with outgoing exactly when both chunkList and outgoing are empty,
and otherwise writes incoming as a new chunk appended to the tail of
chunkList and resets incoming to empty; in every case it increments size
by exactly one and never fails (put is a total function of the state). -/
theorem claim3_put_effect {α : Type} (s : QState α) (a : α) (now : Nat) :
    (put s a now).size = s.size + 1 ∧
    (s.queue_in.length + 1 < s.buffer_size →
      put s a now = { s with queue_in := s.queue_in ++ [a], size := s.size + 1 }) ∧
    (s.buffer_size ≤ s.queue_in.length + 1 → s.files = [] → s.queue_out = [] →
      put s a now = { s with queue_in := s.queue_out,
                             queue_out := s.queue_in ++ [a], size := s.size + 1 }) ∧
    (s.buffer_size ≤ s.queue_in.length + 1 → ¬(s.files = [] ∧ s.queue_out = []) →
      put s a now = { s with queue_in := [],
                             files := s.files ++ [now],
                             dir := fun k => if k = now
                                             then Option.some (s.queue_in ++ [a])
                                             else s.dir k,
                             size := s.size + 1 }) := by
  refine ⟨?_, ?_, ?_, ?_⟩
  · by_cases hc : s.buffer_size ≤ s.queue_in.length + 1
    · by_cases hsw : s.files.isEmpty && s.queue_out.isEmpty
      · simp [put, hc, hsw]
      · simp [put, save_to_file, hc, hsw]
    · simp [put, hc]
  · intro h
    have hc : ¬ s.buffer_size ≤ s.queue_in.length + 1 := by omega
    simp [put, hc]
  · intro hc hf ho
    simp [put, hc, hf, ho]
  · intro hc hno
    have hsw : ¬ (s.files.isEmpty && s.queue_out.isEmpty) = true := by
      rw [Bool.and_eq_true, List.isEmpty_iff, List.isEmpty_iff]
      exact hno
    simp [put, save_to_file, hc, hsw]

/-- Witness for C3: a put below capacity on a fresh capacity-2 queue just
appends. -/
theorem claim3_put_effect_witness :
    put (initQ Option.none 2 false : QState Nat) 7 1
      = { (initQ Option.none 2 false : QState Nat) with
          queue_in := (initQ Option.none 2 false : QState Nat).queue_in ++ [7],
          size := (initQ Option.none 2 false : QState Nat).size + 1 } :=
  (claim3_put_effect (initQ Option.none 2 false) 7 1).2.1 (by decide)

/-- Claim C7: on every state whose outgoing, chunkList and incoming are
all empty, get(block=false) fails immediately with Empty — whatever the
timeout, which non-blocking mode ignores — leaving the state unchanged;
and get_nowait behaves exactly as get(block=false) on every state. -/
theorem claim7_nonblocking_empty {α : Type} (s : QState α) (t : ℚ) :
    (s.queue_out = [] → s.files = [] → s.queue_in = [] →
      get s false t = (Except.error GetErr.empty, s)) ∧
    get_nowait s = get s false t := by
  constructor
  · intro h1 h2 h3
    rw [get_nonblocking_timeout_irrel]
    obtain ⟨sz, qin, qout, fs, dirf, cap, sv⟩ := s
    simp only at h1 h2 h3
    subst h1
    subst h2
    subst h3
    rfl
  · rw [get_nowait]
    exact (get_nonblocking_timeout_irrel s t).symm

/-- Witness for C7 on a fresh empty queue with timeout 1. -/
theorem claim7_nonblocking_empty_witness :
    get (initQ Option.none 2 false : QState Nat) false 1
      = (Except.error GetErr.empty, initQ Option.none 2 false) ∧
    get_nowait (initQ Option.none 2 false : QState Nat)
      = get (initQ Option.none 2 false : QState Nat) false 1 :=
  ⟨(claim7_nonblocking_empty (initQ Option.none 2 false) 1).1 rfl rfl rfl,
   (claim7_nonblocking_empty (initQ Option.none 2 false) 1).2⟩

/-- Claim C9: whenever get raises Empty — in non-blocking mode or on
timeout expiry — the queue state is left exactly as it was before the
call: size, incoming, outgoing and chunkList all unchanged. -/
theorem claim9_empty_unchanged {α : Type} (s : QState α) (block : Bool) (t : ℚ)
    (h : (get s block t).1 = Except.error GetErr.empty) :
    (get s block t).2 = s := by
  obtain ⟨sz, qin, qout, fs, dirf, cap, sv⟩ := s
  match qout with
  | x :: xs => simp [get, finishPop] at h
  | [] =>
    match fs with
    | id :: rest =>
      match hd : dirf id with
      | Option.none => simp [get, hd] at h
      | Option.some content =>
        match content with
        | [] => simp [get, hd, finishPop] at h
        | y :: ys => simp [get, hd, finishPop] at h
    | [] =>
      match qin with
      | z :: zs => simp [get, finishPop] at h
      | [] =>
        by_cases hb : block
        · by_cases ht : (0 : ℚ) < t
          · simp [get, hb, ht]
          · simp [get, hb, ht] at h
        · simp [get, hb]

/-- Witness for C9: non-blocking get on a fresh empty queue raises Empty
and leaves the state untouched. -/
theorem claim9_empty_unchanged_witness :
    (get (initQ Option.none 1 false : QState Nat) false 0).2
      = initQ Option.none 1 false :=
  claim9_empty_unchanged (initQ Option.none 1 false) false 0 rfl

/-- Claim C5 is refuted by the code (the spec's blocking-protocol section
states the intent; its design notes flag the narrower check as a latent
bug): at a wake-time state with a chunk available but an empty incoming
buffer, the wait loops of lines 100-108 keep waiting — they re-check only
queue_in — while the retry-from-the-top evaluation the claim describes
would serve the chunk and return item 42. -/
theorem claim5_wake_recheck :
    wakeResume wakeEx = Option.none ∧
    (wakeResumeSpec wakeEx).isSome = true ∧
    (get wakeEx false 0).1 = Except.ok 42 :=
  ⟨rfl, rfl, rfl⟩

/-- Claim C6 counterexample: with capacity 1 and the millisecond clock
reading 5 at both spills, the state collide2 already lists chunk 5
(holding [20]); the next put spills again with stamp 5: the generated id 5
is still referenced by chunkList, so the id enters the list twice and the
queued chunk file is overwritten ([20] is lost, replaced by [30]). -/
theorem claim6_spill_id_cex :
    collide2.files = [5] ∧
    collide2.dir 5 = Option.some [20] ∧
    (put collide2 30 5).files = [5, 5] ∧
    ¬ (put collide2 30 5).files.Nodup ∧
    (put collide2 30 5).dir 5 = Option.some [30] :=
  ⟨rfl, rfl, rfl, by decide, rfl⟩

/-- Claim C6 amended: the spill id is the millisecond stamp; provided the
clock has strictly advanced past every id still referenced by chunkList,
the generated id is fresh: it is not in chunkList, the list stays
duplicate-free, and no listed chunk file's contents change. -/
theorem claim6_spill_id_fresh {α : Type} (s : QState α) (q : List α) (tl : Bool)
    (now : Nat) (hnodup : s.files.Nodup) (hadv : ∀ id ∈ s.files, id < now) :
    now ∉ s.files ∧
    (save_to_file s q tl now).files.Nodup ∧
    (∀ id ∈ s.files, (save_to_file s q tl now).dir id = s.dir id) := by
  have hnot : now ∉ s.files := fun h => lt_irrefl now (hadv now h)
  refine ⟨hnot, ?_, ?_⟩
  · cases tl
    · have hf : (save_to_file s q false now).files = now :: s.files := by
        simp [save_to_file]
      rw [hf]
      exact List.nodup_cons.mpr ⟨hnot, hnodup⟩
    · have hf : (save_to_file s q true now).files = s.files ++ [now] := by
        simp [save_to_file]
      rw [hf]
      exact List.Nodup.append hnodup (List.nodup_singleton now)
        (by simpa using fun h => hnot h)
  · intro id hid
    have hne : id ≠ now := Nat.ne_of_lt (hadv id hid)
    simp [save_to_file, hne]

/-- Witness for the amended C6 at the collided state with an advanced
clock. -/
theorem claim6_spill_id_fresh_witness :
    6 ∉ collide2.files ∧
    (save_to_file collide2 [99] true 6).files.Nodup ∧
    (∀ id ∈ collide2.files,
      (save_to_file collide2 [99] true 6).dir id = collide2.dir id) :=
  claim6_spill_id_fresh collide2 [99] true 6 (by decide) (by decide)

/-- Claim C8 counterexample: after close the buffers are indeed the None
sentinel, but not every further operation fails fast — a blocking get with
no timeout on the closed object finds every truthiness test false and
waits on the condition forever instead of raising an error. -/
theorem claim8_closed_cex :
    closedEx.queue_in = Option.none ∧
    (getN closedEx true 0).1 = Except.error PyErr.wouldBlock :=
  ⟨rfl, rfl⟩

/-- Claim C8 amended: after close() the three buffers are set to the None
sentinel; put then fails fast (AttributeError from appending to None) and
non-blocking get — hence get_nowait — raises Empty immediately; but a
blocking get without timeout blocks indefinitely, and with a positive
timeout waits the timeout out before raising Empty, rather than failing
fast. -/
theorem claim8_closed_behaviour {α : Type} (s : QStateN α) (t1 t2 : Nat) :
    ((closeN s t1 t2).2).queue_in = Option.none ∧
    ((closeN s t1 t2).2).queue_out = Option.none ∧
    ((closeN s t1 t2).2).files = Option.none ∧
    (∀ (a : α) (now : Nat),
      putN (closeN s t1 t2).2 a now = Except.error PyErr.attrError) ∧
    (∀ t : ℚ, getN (closeN s t1 t2).2 false t
      = (Except.error PyErr.empty, (closeN s t1 t2).2)) ∧
    (∀ t : ℚ, 0 < t → getN (closeN s t1 t2).2 true t
      = (Except.error PyErr.empty, (closeN s t1 t2).2)) ∧
    getN (closeN s t1 t2).2 true 0
      = (Except.error PyErr.wouldBlock, (closeN s t1 t2).2) := by
  have hred : ∀ t : ℚ, getN (closeN s t1 t2).2 true t
      = (if 0 < t then (Except.error PyErr.empty, (closeN s t1 t2).2)
         else (Except.error PyErr.wouldBlock, (closeN s t1 t2).2)) :=
    fun t => rfl
  refine ⟨rfl, rfl, rfl, fun a now => rfl, fun t => rfl, fun t ht => ?_, ?_⟩
  · rw [hred t, if_pos ht]
  · rw [hred 0, if_neg (lt_irrefl 0)]

/-- Witness for the amended C8: a timed blocking get on a closed queue
raises Empty (after the wait). -/
theorem claim8_closed_behaviour_witness :
    getN (closeN (toN (initQ Option.none 2 false : QState Nat)) 5 6).2 true 1
      = (Except.error PyErr.empty,
         (closeN (toN (initQ Option.none 2 false : QState Nat)) 5 6).2) :=
  (claim8_closed_behaviour (toN (initQ Option.none 2 false)) 5 6).2.2.2.2.2.1 1
    (by norm_num)

end FileQueue
